import Mathlib

/-!
# Verification of `accept-encoding` (http-rs/accept-encoding)

Shallow embedding of `src/lib.rs`: the `Encoding` enum, the per-segment
directive parser, the list-producing entry point `encodings`, and the
single-best entry point `parse`.

Modelling decisions:

* A `HeaderMap` is represented by the ordered list of the string values of
  the `Accept-Encoding` occurrences of the map (`get_all(ACCEPT_ENCODING)`).
  Case-insensitive field-name lookup and the `HeaderValue::to_str`
  byte-level visibility check live in the external `http` crate and are out
  of scope; `to_str` is modelled as always succeeding on these strings.
* Rust `f32` values are modelled by `FVal`: exact rationals plus the
  `inf` / `neginf` / `nan` points that the Rust float grammar can produce.
  Arithmetic and comparisons on finite values are exact over `ℚ`;
  rounding of `f32` literals and of the subtraction in the
  `(qval - 1.0).abs() < 0.01` test is not modelled, so behaviour exactly at
  the tolerance boundary (e.g. `q=0.99`) may differ from real `f32`.
* `ErrorKind` is declared in `src/error.rs`, which is not part of the
  sources here; its two variants are taken from their uses in `src/lib.rs`
  and from the error taxonomy of the spec.
-/

/-- The `Encoding` enum of `src/lib.rs`. -/
inductive Encoding where
  | Gzip
  | Deflate
  | Brotli
  | Zstd
  | Identity
  | Any
  deriving DecidableEq

/-- Modelled from the spec: the error taxonomy of the missing `src/error.rs`
(two kinds, `InvalidEncoding` and `UnknownEncoding`), matching the two
variants `src/lib.rs` constructs. -/
inductive ErrorKind where
  | InvalidEncoding
  | UnknownEncoding
  deriving DecidableEq

instance {ε α : Type} [DecidableEq ε] [DecidableEq α] : DecidableEq (Except ε α) := by
  intro a b
  cases a <;> cases b
  case error.error e f =>
    exact if h : e = f then .isTrue (by rw [h]) else .isFalse (fun hc => by cases hc; exact h rfl)
  case ok.ok x y =>
    exact if h : x = y then .isTrue (by rw [h]) else .isFalse (fun hc => by cases hc; exact h rfl)
  case error.ok e x => exact .isFalse (fun hc => by cases hc)
  case ok.error x e => exact .isFalse (fun hc => by cases hc)

/-- A Rust `f32` value, modelled with exact rational arithmetic for the
finite case. -/
inductive FVal where
  | finite (q : ℚ)
  | inf
  | neginf
  | nan
  deriving DecidableEq

namespace FVal

/-- Rust `f32` comparison `a > b` (any comparison with NaN is false). -/
def gt : FVal → FVal → Bool
  | nan, _ => false
  | _, nan => false
  | inf, inf => false
  | inf, _ => true
  | _, inf => false
  | finite _, neginf => true
  | neginf, _ => false
  | finite a, finite b => decide (b < a)

/-- Rust `f32` absolute difference from `1.0`, used by the `parse` fold. -/
def distToOne : FVal → FVal
  | finite q => finite (if q - 1 < 0 then -(q - 1) else q - 1)
  | inf => inf
  | neginf => inf
  | nan => nan

/-- The short-circuit test of `parse`: `(qval - 1.0f32).abs() < 0.01`. -/
def near1 (x : FVal) : Bool :=
  match distToOne x with
  | finite d => decide (d < 1 / 100)
  | _ => false

end FVal

/-! ## The Rust `f32` string grammar (`str::parse::<f32>`) -/

/-- Numeric value of a digit string, most significant first. -/
def digitsToNat (ds : List Char) : ℕ :=
  ds.foldl (fun a c => 10 * a + (c.toNat - 48)) 0

/-- Case-insensitive comparison against a lowercase keyword, as the Rust float
grammar applies to `inf`, `infinity` and `nan`. -/
def lowerEq (cs : List Char) (kw : List Char) : Bool :=
  cs.map Char.toLower = kw

/-- The exponent part after `e`/`E`: optional sign then a nonempty digit
run consuming the rest of the string. -/
def parseExpPart (cs : List Char) : Option ℤ :=
  let (sgn, rest) : ℤ × List Char :=
    match cs with
    | '+' :: r => (1, r)
    | '-' :: r => (-1, r)
    | r => (1, r)
  let (ds, rest2) := rest.span Char.isDigit
  if ds.isEmpty ∨ ¬ rest2.isEmpty then none
  else some (sgn * (digitsToNat ds : ℤ))

/-- The unsigned decimal part of the Rust float grammar:
`Digits '.'? Digits? Exp?` or `'.' Digits Exp?`, at least one mantissa
digit required. -/
def parseDecimal (cs : List Char) : Option ℚ :=
  let (d1, r1) := cs.span Char.isDigit
  let (d2, r2) : List Char × List Char :=
    match r1 with
    | '.' :: rest => rest.span Char.isDigit
    | _ => ([], r1)
  if d1.isEmpty ∧ d2.isEmpty then none
  else
    let mant : ℚ := (digitsToNat d1 : ℚ) + (digitsToNat d2 : ℚ) / (10 ^ d2.length)
    match r2 with
    | [] => some mant
    | c :: rest =>
      if c = 'e' ∨ c = 'E' then
        match parseExpPart rest with
        | some ex => some (mant * (10 : ℚ) ^ ex)
        | none => none
      else none

/-- Rust `str::parse::<f32>`: optional sign, then `inf`/`infinity`/`nan`
(case-insensitive) or a decimal number; `none` is the `Err` case. Finite
values are kept exact instead of being rounded to `f32`. -/
def parseF32 (s : String) : Option FVal :=
  match s.data with
  | [] => none
  | cs =>
    let (neg, rest) : Bool × List Char :=
      match cs with
      | '+' :: r => (false, r)
      | '-' :: r => (true, r)
      | r => (false, r)
    if lowerEq rest ['i', 'n', 'f'] ∨
       lowerEq rest ['i', 'n', 'f', 'i', 'n', 'i', 't', 'y'] then
      some (if neg then FVal.neginf else FVal.inf)
    else if lowerEq rest ['n', 'a', 'n'] then
      some FVal.nan
    else
      match parseDecimal rest with
      | some q => some (FVal.finite (if neg then -q else q))
      | none => none

/-! ## String splitting primitives used by `encodings` -/

/-- Rust `str::split(',')`: yields one (possibly empty) piece per
comma-separated region; the empty string yields `[""]`. -/
def splitOnComma : List Char → List (List Char)
  | [] => [[]]
  | c :: cs =>
    if c = ',' then [] :: splitOnComma cs
    else
      match splitOnComma cs with
      | [] => [[c]]
      | h :: t => (c :: h) :: t

/-- Rust `str::trim` (whitespace at both ends removed; header values only
ever contain space and tab, both covered by `Char.isWhitespace`). -/
def trimChars (cs : List Char) : List Char :=
  ((cs.dropWhile Char.isWhitespace).reverse.dropWhile Char.isWhitespace).reverse

/-- Rust `v.splitn(2, ";q=")`: the part before the first occurrence of the
exact substring `;q=`, and, when it occurs, the whole remainder after it. -/
def splitQ : List Char → List Char × Option (List Char)
  | [] => ([], none)
  | ';' :: 'q' :: '=' :: rest => ([], some rest)
  | c :: rest =>
    let (t, q) := splitQ rest
    (c :: t, q)

namespace Encoding

/-- The method `Encoding::parse` of `src/lib.rs`: exact match against the
six recognized tokens, `UnknownEncoding` otherwise. -/
def parse (s : String) : Except ErrorKind Encoding :=
  match s with
  | "gzip" => .ok .Gzip
  | "deflate" => .ok .Deflate
  | "br" => .ok .Brotli
  | "zstd" => .ok .Zstd
  | "identity" => .ok .Identity
  | "*" => .ok .Any
  | _ => .error ErrorKind.UnknownEncoding

/-- The method `Encoding::to_header_value` of `src/lib.rs`, with the
returned `HeaderValue` represented by its string content. -/
def to_header_value : Encoding → String
  | .Gzip => "gzip"
  | .Deflate => "deflate"
  | .Brotli => "br"
  | .Zstd => "zstd"
  | .Identity => "identity"
  | .Any => "*"

end Encoding

/-! ## The two public entry points -/

/-- The comma-separated, trimmed segments of all header occurrences, in
encounter order: the `flat_map(|s| s.split(',').map(str::trim))` stage of
`encodings`. -/
def segments (headers : List String) : List String :=
  headers.flatMap (fun h => (splitOnComma h.data).map (fun cs => String.mk (trimChars cs)))

/-- The `filter_map` body of `encodings` applied to one trimmed segment:
`none` means the segment is skipped (unknown token), `some (Except ...)`
is an emitted directive or a hard error. -/
def segResult (seg : String) : Option (Except ErrorKind (Encoding × FVal)) :=
  let (tok, qopt) := splitQ seg.data
  match Encoding.parse (String.mk tok) with
  | .error _ => none
  | .ok enc =>
    match qopt with
    | none => some (.ok (enc, FVal.finite 1))
    | some qs =>
      match parseF32 (String.mk qs) with
      | none => some (.error ErrorKind.InvalidEncoding)
      | some qval =>
        if FVal.gt qval (FVal.finite 1) then some (.error ErrorKind.InvalidEncoding)
        else some (.ok (enc, qval))

/-- Rust `collect::<Result<Vec<_>>>()`: the list of all `Ok` payloads, or
the first `Err` encountered. -/
def collectExcept {α : Type} : List (Except ErrorKind α) → Except ErrorKind (List α)
  | [] => .ok []
  | .error e :: _ => .error e
  | .ok a :: rest => (collectExcept rest).map (fun l => a :: l)

/-- The entry point `encodings` of `src/lib.rs`: split every header
occurrence into trimmed segments, run the directive parser on each, drop
unknown tokens, and collect into a list or the first hard error. -/
def encodings (headers : List String) : Except ErrorKind (List (Encoding × FVal)) :=
  collectExcept ((segments headers).filterMap segResult)

/-- The selection loop of `parse`: short-circuit on the first quality
within 0.01 of 1.0, otherwise keep the strictly greatest quality seen. -/
def selectGo : List (Encoding × FVal) → Encoding → FVal → Encoding
  | [], best, _ => best
  | (enc, qval) :: rest, best, maxq =>
    if FVal.near1 qval then enc
    else if FVal.gt qval maxq then selectGo rest enc qval
    else selectGo rest best maxq

/-- The entry point `parse` of `src/lib.rs`: fold the directive list
starting from `(Encoding::Any, 0.0)`. -/
def parse (headers : List String) : Except ErrorKind Encoding :=
  (encodings headers).map (fun l => selectGo l Encoding.Any (FVal.finite 0))

/-! ## Spec-worded selection and per-segment classification -/

/-- Modelled from the spec wording of the selection rule: scan the
directives with a `(best, best_quality)` state, select and stop at the
first directive whose quality is within 0.01 of 1.0, otherwise replace the
best exactly when the quality strictly exceeds the best quality seen. -/
def claimGo : List (Encoding × FVal) → Encoding × FVal → Encoding
  | [], st => st.1
  | d :: rest, st =>
    if FVal.near1 d.2 then d.1
    else if FVal.gt d.2 st.2 then claimGo rest d
    else claimGo rest st

/-- Modelled from the spec wording: the fold of a directive list starting
from `(Any, 0.0)`. -/
def claimSelect (l : List (Encoding × FVal)) : Encoding :=
  claimGo l (Encoding.Any, FVal.finite 0)

/-- Modelled from the spec wording of the non-short-circuit case: a pure
fold in which a directive becomes the new best exactly when its quality
strictly exceeds the best quality seen so far. -/
def strictBest : List (Encoding × FVal) → Encoding × FVal → Encoding
  | [], st => st.1
  | d :: rest, st =>
    if FVal.gt d.2 st.2 then strictBest rest d else strictBest rest st

/-- The directive a trimmed segment contributes on the success path:
`some` exactly for a recognized token with an acceptable quality. -/
def okPair (seg : String) : Option (Encoding × FVal) :=
  match segResult seg with
  | some (.ok p) => some p
  | _ => none

/-- A segment with a recognized token whose `;q=` fragment is present and
either fails to parse as a float or parses to a value greater than 1.0. -/
def malformedSeg (seg : String) : Prop :=
  (∃ e, Encoding.parse (String.mk (splitQ seg.data).1) = .ok e) ∧
  ∃ qs, (splitQ seg.data).2 = some qs ∧
    (parseF32 (String.mk qs) = none ∨
      ∃ q, parseF32 (String.mk qs) = some q ∧ FVal.gt q (FVal.finite 1) = true)

/-! ## Lemmas about the selection loop -/

theorem selectGo_append_near1 (pre : List (Encoding × FVal)) (e : Encoding)
    (q : FVal) (post : List (Encoding × FVal)) (best : Encoding) (maxq : FVal)
    (hpre : ∀ p ∈ pre, FVal.near1 p.2 = false) (hq : FVal.near1 q = true) :
    selectGo (pre ++ (e, q) :: post) best maxq = e := by
  induction pre generalizing best maxq with
  | nil => simp [selectGo, hq]
  | cons d rest ih =>
    obtain ⟨de, dq⟩ := d
    have hd : FVal.near1 dq = false := hpre (de, dq) (List.mem_cons_self _ _)
    have hrest : ∀ p ∈ rest, FVal.near1 p.2 = false :=
      fun p hp => hpre p (List.mem_cons_of_mem _ hp)
    simp only [List.cons_append, selectGo, hd, Bool.false_eq_true, if_false]
    by_cases hg : FVal.gt dq maxq
    · rw [if_pos hg]; exact ih de dq hrest
    · rw [if_neg hg]; exact ih best maxq hrest

theorem selectGo_eq_claimGo (l : List (Encoding × FVal)) (best : Encoding)
    (maxq : FVal) : selectGo l best maxq = claimGo l (best, maxq) := by
  induction l generalizing best maxq with
  | nil => rfl
  | cons d rest ih =>
    obtain ⟨de, dq⟩ := d
    simp only [selectGo, claimGo]
    by_cases hn : FVal.near1 dq
    · rw [if_pos hn, if_pos hn]
    · rw [if_neg hn, if_neg hn]
      by_cases hg : FVal.gt dq maxq
      · rw [if_pos hg, if_pos hg]; exact ih de dq
      · rw [if_neg hg, if_neg hg]; exact ih best maxq

theorem selectGo_eq_strictBest (l : List (Encoding × FVal)) (best : Encoding)
    (maxq : FVal) (h : ∀ p ∈ l, FVal.near1 p.2 = false) :
    selectGo l best maxq = strictBest l (best, maxq) := by
  induction l generalizing best maxq with
  | nil => rfl
  | cons d rest ih =>
    obtain ⟨de, dq⟩ := d
    have hd : FVal.near1 dq = false := h (de, dq) (List.mem_cons_self _ _)
    have hrest : ∀ p ∈ rest, FVal.near1 p.2 = false :=
      fun p hp => h p (List.mem_cons_of_mem _ hp)
    simp only [selectGo, strictBest, hd, Bool.false_eq_true, if_false]
    by_cases hg : FVal.gt dq maxq
    · rw [if_pos hg, if_pos hg]; exact ih de dq hrest
    · rw [if_neg hg, if_neg hg]; exact ih best maxq hrest

/-! ## Lemmas about collecting segment results -/

theorem segResult_error_kind (seg : String) (k : ErrorKind)
    (h : segResult seg = some (.error k)) : k = ErrorKind.InvalidEncoding := by
  unfold segResult at h
  split at h
  split at h
  · exact absurd h (by simp)
  · split at h
    · simp at h
    · split at h
      · injection h with h; injection h with h; exact h.symm
      · split at h
        · injection h with h; injection h with h; exact h.symm
        · simp at h

theorem segResult_ok_not_gt_one (seg : String) (p : Encoding × FVal)
    (h : segResult seg = some (.ok p)) :
    FVal.gt p.2 (FVal.finite 1) = false := by
  unfold segResult at h
  split at h
  split at h
  · exact absurd h (by simp)
  · split at h
    · injection h with h; injection h with h
      rw [← h]
      with_unfolding_all rfl
    · split at h
      · simp at h
      · split at h
        next hgt => simp at h
        next q hq hgt =>
          injection h with h; injection h with h
          rw [← h]
          simpa using hgt

theorem segResult_of_malformed (seg : String) (h : malformedSeg seg) :
    segResult seg = some (.error ErrorKind.InvalidEncoding) := by
  obtain ⟨⟨e, he⟩, qs, hqs, hbad⟩ := h
  rcases hsp : splitQ seg.data with ⟨tok, qopt⟩
  rw [hsp] at he hqs
  simp only at he hqs
  rcases hbad with hnone | ⟨q, hq, hgt⟩
  · simp only [segResult, hsp, he, hqs, hnone]
  · simp only [segResult, hsp, he, hqs, hq, hgt, if_true]

theorem collectExcept_ok_of_no_error (segs : List String)
    (h : ∀ seg ∈ segs, ∀ k, segResult seg ≠ some (.error k)) :
    collectExcept (segs.filterMap segResult) = .ok (segs.filterMap okPair) := by
  induction segs with
  | nil => rfl
  | cons s rest ih =>
    have hs := h s (List.mem_cons_self _ _)
    have hrest : ∀ seg ∈ rest, ∀ k, segResult seg ≠ some (.error k) :=
      fun seg hseg => h seg (List.mem_cons_of_mem _ hseg)
    cases hsr : segResult s with
    | none =>
      have hok : okPair s = none := by simp only [okPair, hsr]
      simp only [List.filterMap_cons, hsr, hok]
      exact ih hrest
    | some x =>
      cases x with
      | error k => exact absurd hsr (hs k)
      | ok p =>
        have hok : okPair s = some p := by simp only [okPair, hsr]
        simp only [List.filterMap_cons, hsr, hok, collectExcept, ih hrest,
          Except.map]

theorem collectExcept_first_error {α : Type}
    (L : List (Except ErrorKind α))
    (h1 : ∃ x ∈ L, ∃ k, x = .error k)
    (h2 : ∀ x ∈ L, ∀ k, x = .error k → k = ErrorKind.InvalidEncoding) :
    collectExcept L = .error ErrorKind.InvalidEncoding := by
  induction L with
  | nil => simp at h1
  | cons x rest ih =>
    cases x with
    | error k =>
      have hk := h2 (.error k) (List.mem_cons_self _ _) k rfl
      rw [hk]
      rfl
    | ok a =>
      obtain ⟨y, hy, k, hk⟩ := h1
      rcases List.mem_cons.mp hy with rfl | hy2
      · simp at hk
      · have hr : collectExcept rest = .error ErrorKind.InvalidEncoding :=
          ih ⟨y, hy2, k, hk⟩ (fun z hz => h2 z (List.mem_cons_of_mem _ hz))
        simp only [collectExcept, hr, Except.map]

theorem mem_of_collectExcept_ok {α : Type}
    (L : List (Except ErrorKind α)) (l : List α)
    (h : collectExcept L = .ok l) : ∀ a ∈ l, Except.ok a ∈ L := by
  induction L generalizing l with
  | nil =>
    injection h with h
    subst h
    simp
  | cons x rest ih =>
    cases x with
    | error e => simp [collectExcept] at h
    | ok b =>
      simp only [collectExcept] at h
      cases hr : collectExcept rest with
      | error e => rw [hr] at h; simp [Except.map] at h
      | ok tail =>
        rw [hr] at h
        simp only [Except.map] at h
        injection h with h
        subst h
        intro a ha
        rcases List.mem_cons.mp ha with rfl | ha2
        · exact List.mem_cons_self _ _
        · exact List.mem_cons_of_mem _ (ih tail hr a ha2)

theorem not_error_mem_of_collectExcept_ok {α : Type}
    (L : List (Except ErrorKind α)) (l : List α)
    (h : collectExcept L = .ok l) (k : ErrorKind) : Except.error k ∉ L := by
  induction L generalizing l with
  | nil => simp
  | cons x rest ih =>
    cases x with
    | error e => simp [collectExcept] at h
    | ok b =>
      simp only [collectExcept] at h
      cases hr : collectExcept rest with
      | error e => rw [hr] at h; simp [Except.map] at h
      | ok tail =>
        intro hmem
        rcases List.mem_cons.mp hmem with heq | hmem2
        · exact Except.noConfusion heq
        · exact ih tail hr hmem2

/-! ## Claim theorems -/

/-- C1: for every header map whose directive list parses successfully as
`l`, the single-best selector `parse` scans `l` in encounter order: it
returns the encoding of the first directive whose quality is within 0.01
of 1.0 and ignores all later directives, and when no directive is near
1.0 it returns the fold in which a directive becomes the new best exactly
when its quality strictly exceeds the best quality seen so far. -/
theorem c1_parse_scan_order (headers : List String)
    (l : List (Encoding × FVal)) (h : encodings headers = .ok l) :
    (∀ pre e q post, l = pre ++ (e, q) :: post →
        (∀ p ∈ pre, FVal.near1 p.2 = false) → FVal.near1 q = true →
        parse headers = .ok e)
    ∧ ((∀ p ∈ l, FVal.near1 p.2 = false) →
        parse headers = .ok (strictBest l (Encoding.Any, FVal.finite 0))) := by
  have hp : parse headers = .ok (selectGo l Encoding.Any (FVal.finite 0)) := by
    simp only [parse, h, Except.map]
  constructor
  · intro pre e q post hl hpre hq
    rw [hp, hl, selectGo_append_near1 pre e q post Encoding.Any (FVal.finite 0) hpre hq]
  · intro hnone
    rw [hp, selectGo_eq_strictBest l Encoding.Any (FVal.finite 0) hnone]

theorem c1_parse_scan_order_witness : parse ["gzip"] = .ok Encoding.Gzip :=
  (c1_parse_scan_order ["gzip"] [(Encoding.Gzip, FVal.finite 1)]
      (by with_unfolding_all rfl)).1
    [] Encoding.Gzip (FVal.finite 1) [] rfl
    (fun p hp => absurd hp (List.not_mem_nil p))
    (by with_unfolding_all rfl)

/-- C2 counterexample: the header value `gzip;q=-1` is accepted by
`encodings` and yields the quality `-1`, which lies outside `[0.0, 1.0]`;
the claimed lower bound fails on the code. -/
theorem c2_cex_negative_quality :
    encodings ["gzip;q=-1"] = .ok [(Encoding.Gzip, FVal.finite (-1))]
    ∧ ((-1 : ℚ) < 0) :=
  ⟨by with_unfolding_all rfl, by norm_num⟩

/-- C2 amended: every quality in a successful `encodings` result is never
greater than 1.0 under the f32 comparison of the code (an explicit
q-value parsed as greater than 1.0 is a hard error, never clamped, and an
absent q-value defaults to 1.0), but explicit negative q-values are
accepted unchanged, so the claimed lower bound 0.0 does not hold. -/
theorem c2_amended_upper_bound (headers : List String)
    (l : List (Encoding × FVal)) (h : encodings headers = .ok l) :
    (∀ p ∈ l, FVal.gt p.2 (FVal.finite 1) = false)
    ∧ (∀ seg ∈ segments headers, ¬ malformedSeg seg) := by
  have hcol : collectExcept ((segments headers).filterMap segResult) = .ok l := h
  constructor
  · intro p hp
    obtain ⟨s, hsmem, hsr⟩ :=
      List.mem_filterMap.mp (mem_of_collectExcept_ok _ _ hcol p hp)
    exact segResult_ok_not_gt_one s p hsr
  · intro seg hseg hmal
    exact not_error_mem_of_collectExcept_ok _ _ hcol ErrorKind.InvalidEncoding
      (List.mem_filterMap.mpr ⟨seg, hseg, segResult_of_malformed seg hmal⟩)

theorem c2_amended_upper_bound_witness :
    FVal.gt (FVal.finite (1 / 2)) (FVal.finite 1) = false :=
  (c2_amended_upper_bound ["gzip;q=0.5"] [(Encoding.Gzip, FVal.finite (1 / 2))]
      (by with_unfolding_all rfl)).1
    (Encoding.Gzip, FVal.finite (1 / 2)) (List.mem_singleton.mpr rfl)

theorem okPair_isSome_iff (seg : String)
    (h : ∀ k, segResult seg ≠ some (.error k)) :
    (okPair seg).isSome ↔
      ∃ e, Encoding.parse (String.mk (splitQ seg.data).1) = .ok e := by
  rcases hsp : splitQ seg.data with ⟨tok, qopt⟩
  simp only [hsp]
  cases hep : Encoding.parse (String.mk tok) with
  | error k =>
    have hnone : segResult seg = none := by
      simp only [segResult, hsp, hep]
    refine iff_of_false (by simp [okPair, hnone]) ?_
    rintro ⟨e, he⟩
    cases he
  | ok enc =>
    refine iff_of_true ?_ ⟨enc, rfl⟩
    cases hqopt : qopt with
    | none =>
      have hok : segResult seg = some (.ok (enc, FVal.finite 1)) := by
        simp only [segResult, hsp, hep, hqopt]
      simp [okPair, hok]
    | some qs =>
      cases hpf : parseF32 (String.mk qs) with
      | none =>
        exact absurd (by simp only [segResult, hsp, hep, hqopt, hpf])
          (h ErrorKind.InvalidEncoding)
      | some q =>
        by_cases hgt : FVal.gt q (FVal.finite 1) = true
        · exact absurd
            (by simp only [segResult, hsp, hep, hqopt, hpf, hgt, if_true])
            (h ErrorKind.InvalidEncoding)
        · have hok : segResult seg = some (.ok (enc, q)) := by
            simp only [segResult, hsp, hep, hqopt, hpf]
            rw [if_neg hgt]
          simp [okPair, hok]

/-- C3: for every header map in which no segment carries a malformed
quality value, `encodings` succeeds with exactly the pairs contributed
segment by segment in encounter order (one per recognized-token segment,
none for unrecognized tokens, no sorting), and a segment contributes a
pair exactly when its token is one of the six recognized ones. -/
theorem c3_encodings_segmentwise (headers : List String)
    (h : ∀ seg ∈ segments headers, ∀ k, segResult seg ≠ some (.error k)) :
    encodings headers = .ok ((segments headers).filterMap okPair)
    ∧ ∀ seg ∈ segments headers,
        ((okPair seg).isSome ↔
          ∃ e, Encoding.parse (String.mk (splitQ seg.data).1) = .ok e) := by
  exact ⟨collectExcept_ok_of_no_error (segments headers) h,
    fun seg hseg => okPair_isSome_iff seg (h seg hseg)⟩

theorem c3_encodings_segmentwise_witness :
    encodings ["zstd;q=1.0, unknown;q=0.8, br;q=0.9"] =
      .ok [(Encoding.Zstd, FVal.finite 1), (Encoding.Brotli, FVal.finite (9 / 10))] := by
  have hseg : segments ["zstd;q=1.0, unknown;q=0.8, br;q=0.9"] =
      ["zstd;q=1.0", "unknown;q=0.8", "br;q=0.9"] := by with_unfolding_all rfl
  have hyp : ∀ seg ∈ segments ["zstd;q=1.0, unknown;q=0.8, br;q=0.9"], ∀ k,
      segResult seg ≠ some (.error k) := by
    intro seg hmem k
    rw [hseg] at hmem
    simp only [List.mem_cons, List.not_mem_nil, or_false] at hmem
    rcases hmem with rfl | rfl | rfl
    · rw [show segResult "zstd;q=1.0" = some (.ok (Encoding.Zstd, FVal.finite 1))
        from by with_unfolding_all rfl]
      simp
    · rw [show segResult "unknown;q=0.8" = none from by with_unfolding_all rfl]
      simp
    · rw [show segResult "br;q=0.9" =
          some (.ok (Encoding.Brotli, FVal.finite (9 / 10)))
        from by with_unfolding_all rfl]
      simp
  rw [(c3_encodings_segmentwise ["zstd;q=1.0, unknown;q=0.8, br;q=0.9"] hyp).1]
  with_unfolding_all rfl

/-- C4: when some comma-separated segment has a recognized token whose
`;q=` fragment is present and either fails to parse as a float or parses
to a value greater than 1.0, `encodings` and `parse` both return the hard
error `InvalidEncoding` for the whole header, with no partial list. -/
theorem c4_malformed_quality_aborts (headers : List String)
    (h : ∃ seg ∈ segments headers, malformedSeg seg) :
    encodings headers = .error ErrorKind.InvalidEncoding
    ∧ parse headers = .error ErrorKind.InvalidEncoding := by
  obtain ⟨seg, hseg, hmal⟩ := h
  have h1 : ∃ x ∈ (segments headers).filterMap segResult, ∃ k, x = .error k :=
    ⟨.error ErrorKind.InvalidEncoding,
      List.mem_filterMap.mpr ⟨seg, hseg, segResult_of_malformed seg hmal⟩,
      ErrorKind.InvalidEncoding, rfl⟩
  have h2 : ∀ x ∈ (segments headers).filterMap segResult, ∀ k,
      x = .error k → k = ErrorKind.InvalidEncoding := by
    intro x hx k hk
    obtain ⟨s, hsmem, hsr⟩ := List.mem_filterMap.mp hx
    subst hk
    exact segResult_error_kind s k hsr
  have henc : encodings headers = .error ErrorKind.InvalidEncoding :=
    collectExcept_first_error _ h1 h2
  exact ⟨henc, by simp only [parse, henc, Except.map]⟩

theorem c4_malformed_quality_aborts_witness :
    encodings ["gzip;q=1.5"] = .error ErrorKind.InvalidEncoding
    ∧ parse ["gzip;q=1.5"] = .error ErrorKind.InvalidEncoding := by
  refine c4_malformed_quality_aborts ["gzip;q=1.5"] ⟨"gzip;q=1.5", ?_, ?_⟩
  · rw [show segments ["gzip;q=1.5"] = ["gzip;q=1.5"] from by with_unfolding_all rfl]
    exact List.mem_singleton.mpr rfl
  · exact ⟨⟨Encoding.Gzip, by with_unfolding_all rfl⟩,
      "1.5".data, by with_unfolding_all rfl,
      Or.inr ⟨FVal.finite (3 / 2), by with_unfolding_all rfl, by with_unfolding_all rfl⟩⟩

/-- C5: for a header map with no `Accept-Encoding` occurrence, `parse`
succeeds with the no-preference sentinel `Encoding.Any` and `encodings`
succeeds with the empty list. -/
theorem c5_absent_header :
    parse ([] : List String) = .ok Encoding.Any
    ∧ encodings ([] : List String) = .ok [] :=
  ⟨rfl, rfl⟩

/-- C6: when the wildcard directive wins with an exact quality of 1.0, as
in `gzip;q=0.5, deflate;q=0.75, *;q=1.0`, the single-best `parse`
resolves it to `Encoding.Any` rather than to a concrete encoding. -/
theorem c6_wildcard_exact_one_wins :
    parse ["gzip;q=0.5, deflate;q=0.75, *;q=1.0"] = .ok Encoding.Any := by
  with_unfolding_all rfl

/-- C7: every concrete (non-`Any`) `Encoding` serializes with
`to_header_value` to one of the five recognized tokens, and re-parsing
that token with `Encoding.parse` yields the same variant back. -/
theorem c7_round_trip (e : Encoding) (h : e ≠ Encoding.Any) :
    e.to_header_value ∈ (["gzip", "deflate", "br", "zstd", "identity"] : List String)
    ∧ Encoding.parse e.to_header_value = .ok e := by
  cases e <;> first
    | exact absurd rfl h
    | exact ⟨by decide, rfl⟩

theorem c7_round_trip_witness :
    Encoding.Gzip.to_header_value ∈
      (["gzip", "deflate", "br", "zstd", "identity"] : List String)
    ∧ Encoding.parse Encoding.Gzip.to_header_value = .ok Encoding.Gzip :=
  c7_round_trip Encoding.Gzip (by decide)

/-- C8 counterexample: `parse` returns exactly the same value,
`Encoding.Any`, for the absent header and for the header
`gzip;q=0, identity;q=0` in which every recognized directive carries
quality 0.0 — the claimed distinctness fails on the code. -/
theorem c8_cex_distinctness_fails :
    parse ["gzip;q=0, identity;q=0"] = parse ([] : List String)
    ∧ parse ([] : List String) = .ok Encoding.Any :=
  ⟨by with_unfolding_all rfl, rfl⟩

/-- C8 amended: `parse` returns the no-preference sentinel `Encoding.Any`
for an absent header, and returns the very same sentinel for a header
whose every recognized directive carries quality 0.0, so the two cases
are not distinguished by `parse`; only `encodings` separates them (empty
versus non-empty directive list). -/
theorem c8_amended_conflated_sentinel :
    parse ([] : List String) = .ok Encoding.Any
    ∧ parse ["gzip;q=0, identity;q=0"] = .ok Encoding.Any
    ∧ encodings ["gzip;q=0, identity;q=0"] =
        .ok [(Encoding.Gzip, FVal.finite 0), (Encoding.Identity, FVal.finite 0)]
    ∧ encodings ["gzip;q=0, identity;q=0"] ≠ encodings ([] : List String) := by
  refine ⟨rfl, by with_unfolding_all rfl, by with_unfolding_all rfl, ?_⟩
  rw [show encodings ["gzip;q=0, identity;q=0"] =
      .ok [(Encoding.Gzip, FVal.finite 0), (Encoding.Identity, FVal.finite 0)]
    from by with_unfolding_all rfl]
  rw [show encodings ([] : List String) = .ok [] from rfl]
  simp

/-- C9: the two public entry points agree: `parse` errors exactly when
`encodings` errors, and on success `parse` equals the spec-worded fold of
the `encodings` list from `(Any, 0.0)` — stop at the first pair within
0.01 of 1.0, otherwise replace the best on strict quality increase. -/
theorem c9_parse_refines_encodings (headers : List String) :
    ((∃ k, parse headers = .error k) ↔ (∃ k, encodings headers = .error k))
    ∧ (∀ l, encodings headers = .ok l → parse headers = .ok (claimSelect l)) := by
  constructor
  · constructor
    · rintro ⟨k, hk⟩
      cases he : encodings headers with
      | error k2 => exact ⟨k2, rfl⟩
      | ok l =>
        rw [show parse headers = .ok (selectGo l Encoding.Any (FVal.finite 0))
          from by simp only [parse, he, Except.map]] at hk
        cases hk
    · rintro ⟨k, hk⟩
      exact ⟨k, by simp only [parse, hk, Except.map]⟩
  · intro l hl
    simp only [parse, hl, Except.map, claimSelect, selectGo_eq_claimGo]

theorem c9_parse_refines_encodings_witness :
    parse ["deflate"] = .ok (claimSelect [(Encoding.Deflate, FVal.finite 1)]) :=
  (c9_parse_refines_encodings ["deflate"]).2 [(Encoding.Deflate, FVal.finite 1)]
    (by with_unfolding_all rfl)

/-- C10: the `;q=` separator is matched exactly, with no surrounding
whitespace: in `gzip; q=0.5` no `;q=` occurs, the whole segment (quality
fragment included) stays one token, that token is unrecognized, and the
segment is silently dropped by `encodings` with no pair and no error. -/
theorem c10_exact_separator_match :
    (splitQ "gzip; q=0.5".data).1 = "gzip; q=0.5".data
    ∧ (splitQ "gzip; q=0.5".data).2 = none
    ∧ Encoding.parse "gzip; q=0.5" = .error ErrorKind.UnknownEncoding
    ∧ encodings ["gzip; q=0.5"] = .ok []
    ∧ encodings ["gzip; q=0.5, br"] = .ok [(Encoding.Brotli, FVal.finite 1)] :=
  ⟨rfl, rfl, rfl, by with_unfolding_all rfl, by with_unfolding_all rfl⟩
